import Mathlib

/-!
Verification of the codeforces-clone repository against its specification.

The definitions below form a shallow embedding of the repository's
JavaScript code: the PostgreSQL tables of `backend/src/utils/database.js`
become Lean structures, SQL queries become pure functions over lists of
rows, and the judge-pipeline operations that the specification describes
(whose worker code is not part of the repository snapshot) are modelled
from the specification's words, each such definition saying so in its
doc comment.
-/

namespace CodeforcesClone

/-! ### User.camelToSnake and the allowed profile-update fields

From `User.camelToSnake` (models/User.js): every uppercase ASCII letter is
replaced by an underscore followed by its lowercase form, mirroring
`str.replace(/[A-Z]/g, letter => underscore + letter.toLowerCase())`. -/

def camelToSnake (s : String) : String :=
  String.mk (s.data.foldr
    (fun c acc => if c.isUpper then '_' :: c.toLower :: acc else c :: acc) [])

/-- The `allowedUpdates` list of `AuthController.updateProfile`. -/
def allowedUpdates : List String :=
  ["firstName", "lastName", "country", "organization", "bio", "avatarUrl"]

/-- Modelled from the spec: the static camelCase-to-column mapping table that
§9 of the specification asks for — this is the spec side of the
refinement claim, to be compared with the runtime `camelToSnake`. -/
def profileColumnTable : List (String × String) :=
  [("firstName", "first_name"),
   ("lastName", "last_name"),
   ("country", "country"),
   ("organization", "organization"),
   ("bio", "bio"),
   ("avatarUrl", "avatar_url")]

/-! ### Problem.acceptanceRate

From the `acceptanceRate` getter (models/Problem.js):
`if (totalSubmissions === 0) return 0;`
`return Math.round((accepted / total) * 100 * 10) / 10;`
JavaScript `Math.round x` is `Int.floor (x + 1/2)`; the arithmetic is
embedded in the rationals. -/

def jsRound (q : ℚ) : ℤ := ⌊q + 1/2⌋

def acceptanceRate (acceptedSubmissions totalSubmissions : ℕ) : ℚ :=
  if totalSubmissions = 0 then 0
  else
    ((jsRound ((acceptedSubmissions : ℚ) / (totalSubmissions : ℚ) * 100 * 10) : ℚ)) / 10

/-- The claim's phrase "as a percentage". -/
def percentageOf (a t : ℕ) : ℚ := (a : ℚ) / (t : ℚ) * 100

/-- The claim's phrase "rounded to one decimal place". -/
def roundedToOneDecimal (q : ℚ) : ℚ := ((jsRound (q * 10) : ℚ)) / 10

/-! ### The problems table and the Problem model class

A row of the `problems` table created by `createTablesProblems` in
`utils/database.js`; only the columns the verified operations touch are
carried.  `is_public` is `BOOLEAN DEFAULT TRUE` and nullable, hence
`Option Bool`; `time_limit`, `memory_limit`, `total_submissions` and
`accepted_submissions` are nullable integer columns, hence `Option ℕ`. -/
structure ProblemRow where
  id : ℕ
  title : String
  slug : String
  difficulty : String
  time_limit : Option ℕ
  memory_limit : Option ℕ
  total_submissions : Option ℕ
  accepted_submissions : Option ℕ
  is_public : Option Bool
deriving DecidableEq, Repr

/-- JavaScript `x || d` on a nullable number: `null`, `undefined` and `0`
are falsy, so they yield the default. -/
def jsOrNat (o : Option ℕ) (d : ℕ) : ℕ :=
  match o with
  | none => d
  | some n => if n = 0 then d else n

/-- The in-memory `Problem` object built by the `Problem` constructor
(models/Problem.js). -/
structure Problem where
  id : ℕ
  title : String
  slug : String
  difficulty : String
  timeLimit : ℕ
  memoryLimit : ℕ
  totalSubmissions : ℕ
  acceptedSubmissions : ℕ
  isPublic : Bool
deriving DecidableEq, Repr

/-- The `Problem` constructor: `timeLimit = problemData.time_limit || 2000`,
`memoryLimit = problemData.memory_limit || 128`,
`totalSubmissions = problemData.total_submissions || 0`,
`isPublic = problemData.is_public !== false`. -/
def Problem.ofRow (r : ProblemRow) : Problem :=
  { id := r.id
    title := r.title
    slug := r.slug
    difficulty := r.difficulty
    timeLimit := jsOrNat r.time_limit 2000
    memoryLimit := jsOrNat r.memory_limit 128
    totalSubmissions := jsOrNat r.total_submissions 0
    acceptedSubmissions := jsOrNat r.accepted_submissions 0
    isPublic := decide (r.is_public ≠ some false) }

/-- `Problem.findById`: the query
`SELECT * FROM problems WHERE id = $1 AND is_public = true`, the first
matching row wrapped in the constructor, `null` otherwise.  SQL equality
against `true` does not match a NULL `is_public`. -/
def findById (db : List ProblemRow) (i : ℕ) : Option Problem :=
  ((db.filter (fun r => r.id == i && r.is_public == some true)).head?).map Problem.ofRow

/-- `Problem.findBySlug`: identical with `slug = $1` as the key. -/
def findBySlug (db : List ProblemRow) (s : String) : Option Problem :=
  ((db.filter (fun r => r.slug == s && r.is_public == some true)).head?).map Problem.ofRow

/-! ### Test cases and Problem.getTestCases -/

/-- A row of the `test_cases` table (`id SERIAL PRIMARY KEY`,
`problem_id`, `input_data`, `expected_output`, `is_sample`, `points`). -/
structure TestCaseRow where
  id : ℕ
  problem_id : ℕ
  input_data : String
  expected_output : String
  is_sample : Bool
  points : ℕ
deriving DecidableEq, Repr

/-- The row order produced by `ORDER BY id`. -/
def idLE (a b : TestCaseRow) : Prop := a.id ≤ b.id

instance : DecidableRel idLE := fun a b => Nat.decLe a.id b.id

instance : IsTotal TestCaseRow idLE := ⟨fun a b => Nat.le_total a.id b.id⟩

instance : IsTrans TestCaseRow idLE := ⟨fun _ _ _ => Nat.le_trans⟩

/-- `Problem.getTestCases` (models/Problem.js): select the rows of the
problem — restricted to sample rows when `includeSample` is set, since the
query then gains `AND is_sample = true` — and return them `ORDER BY id`. -/
def getTestCases (db : List TestCaseRow) (problemId : ℕ) (includeSample : Bool) :
    List TestCaseRow :=
  List.insertionSort idLE
    (db.filter (fun tc => tc.problem_id == problemId && (!includeSample || tc.is_sample)))

/-! ### The judge pipeline

The repository snapshot carries the submissions table schema
(`createSubmissionsTable` in `utils/database.js`) but not the judge worker
itself; §9 of the specification notes this explicitly.  The worker's
state machine and aggregation policy are therefore modelled from the
specification (§4.3, §4.5), while the initial record comes from the
schema's column defaults in the source. -/

/-- The failure kinds a single test case can produce (§4.3). -/
inductive FailKind where
  | wrongAnswer
  | timeLimitExceeded
  | memoryLimitExceeded
  | runtimeError
deriving DecidableEq, Repr

/-- The submission verdicts (§4.3). -/
inductive Verdict where
  | accepted
  | wrongAnswer
  | timeLimitExceeded
  | memoryLimitExceeded
  | runtimeError
  | compileError
  | internalError
deriving DecidableEq, Repr

def FailKind.toVerdict : FailKind → Verdict
  | .wrongAnswer => .wrongAnswer
  | .timeLimitExceeded => .timeLimitExceeded
  | .memoryLimitExceeded => .memoryLimitExceeded
  | .runtimeError => .runtimeError

/-- The states of the submission worker state machine (§4.3): every
non-Pending/Compiling/Judging state is a terminal verdict state. -/
inductive Status where
  | pending
  | compiling
  | judging
  | terminal (v : Verdict)
deriving DecidableEq, Repr

def Status.isTerminal : Status → Bool
  | .terminal _ => true
  | _ => false

/-- The per-test outcome delivered by the Verdict Comparator. -/
inductive TestResult where
  | pass
  | fail (k : FailKind)
deriving DecidableEq, Repr

def TestResult.isPass : TestResult → Bool
  | .pass => true
  | .fail _ => false

/-- Modelled from the spec (§4.3, fail-fast mode): iterate the test results
in order, stop at the first failure; returns the first failure kind (none
when every test passes) and the number of tests that passed. -/
def runFailFast : List TestResult → Option FailKind × ℕ
  | [] => (none, 0)
  | .pass :: rest => ((runFailFast rest).1, (runFailFast rest).2 + 1)
  | .fail k :: _ => (some k, 0)

/-- Modelled from the spec (§4.3): the aggregate verdict in fail-fast
mode — the first failing kind, `accepted` only if every test passes. -/
def failFastVerdict (rs : List TestResult) : Verdict :=
  match (runFailFast rs).1 with
  | none => .accepted
  | some k => k.toVerdict

/-- Modelled from the spec (§4.3, per-test-points mode): all test cases
run even after a failure, accumulating the pass count and the sum of the
point weights of the passed cases.  Each element pairs a test result with
the test's point weight. -/
def runWeighted : List (TestResult × ℕ) → ℕ × ℕ
  | [] => (0, 0)
  | (.pass, w) :: rest => ((runWeighted rest).1 + 1, (runWeighted rest).2 + w)
  | (.fail _, _) :: rest => runWeighted rest

/-- The problem's maximum points: the sum of its test cases' point
weights. -/
def maxPoints (weights : List ℕ) : ℕ := weights.sum

/-- The persisted submission record, after `createSubmissionsTable`
(`utils/database.js`): status, nullable verdict, score, test counts,
nullable judged-at timestamp and nullable error message. -/
structure Submission where
  status : Status
  verdict : Option Verdict
  score : ℕ
  testsPassed : ℕ
  testsTotal : ℕ
  judgedAt : Option ℕ
  errorMessage : Option String
deriving DecidableEq, Repr

/-- A freshly inserted submission row, from the schema's column defaults:
`status VARCHAR DEFAULT 'Pending'`, `verdict` NULL, `score DEFAULT 0`,
`test_cases_passed DEFAULT 0`, `total_test_cases DEFAULT 0`,
`judged_at` NULL, `error_message` NULL. -/
def initSubmission : Submission :=
  { status := .pending
    verdict := none
    score := 0
    testsPassed := 0
    testsTotal := 0
    judgedAt := none
    errorMessage := none }

/-- Modelled from the spec: the submission worker's transitions (§4.3)
together with the Result Sink's terminal write (§4.5), over a problem
whose test cases carry the point weights `weights`.  Terminal states have
no outgoing transition; every transition into a terminal state records
verdict, counts, score and the judged-at timestamp atomically. -/
inductive Step (weights : List ℕ) : Submission → Submission → Prop where
  | dequeue (s : Submission) :
      s.status = .pending →
      Step weights s { s with status := .compiling }
  | compileFailure (s : Submission) (msg : String) (t : ℕ) :
      s.status = .compiling →
      Step weights s
        { s with status := .terminal .compileError
                 verdict := some .compileError
                 errorMessage := some msg
                 judgedAt := some t }
  | compileOk (s : Submission) :
      s.status = .compiling →
      Step weights s { s with status := .judging }
  | judgeBinary (s : Submission) (rs : List TestResult) (t : ℕ) :
      s.status = .judging → rs.length = weights.length →
      Step weights s
        { s with status := .terminal (failFastVerdict rs)
                 verdict := some (failFastVerdict rs)
                 testsPassed := (runFailFast rs).2
                 testsTotal := weights.length
                 score := if failFastVerdict rs = .accepted then maxPoints weights else 0
                 judgedAt := some t }
  | judgeWeighted (s : Submission) (rs : List TestResult) (t : ℕ) :
      s.status = .judging → rs.length = weights.length →
      Step weights s
        { s with status := .terminal (failFastVerdict rs)
                 verdict := some (failFastVerdict rs)
                 testsPassed := (runWeighted (rs.zip weights)).1
                 testsTotal := weights.length
                 score := (runWeighted (rs.zip weights)).2
                 judgedAt := some t }
  | internalFault (s : Submission) (t : ℕ) :
      s.status.isTerminal = false →
      Step weights s
        { s with status := .terminal .internalError
                 verdict := some .internalError
                 judgedAt := some t }

/-- A submission record the pipeline can actually produce: reachable from
the freshly inserted row by worker transitions. -/
def ReachableSubmission (weights : List ℕ) (s : Submission) : Prop :=
  Relation.ReflTransGen (Step weights) initSubmission s

/-! ### Contest leaderboard

The `contest_participants` table (`createContestParticipantsTable` in
`utils/database.js`) stores score, penalty and a nullable `rank` column;
the Contest Scorer itself is absent from the snapshot, so the leaderboard
read is modelled from §4.6 of the specification. -/

/-- A row of `contest_participants`. -/
structure ParticipantRow where
  contest_id : ℕ
  user_id : ℕ
  score : ℕ
  penalty : ℕ
  rank : Option ℕ
deriving DecidableEq, Repr

/-- A leaderboard entry before rank assignment: the stored `rank` column
is not part of it. -/
structure Standing where
  user_id : ℕ
  score : ℕ
  penalty : ℕ
deriving DecidableEq, Repr

def toStanding (r : ParticipantRow) : Standing :=
  { user_id := r.user_id, score := r.score, penalty := r.penalty }

/-- Modelled from the spec (§4.6): order participants by score descending
with penalty ascending as the tie-break. -/
def standingOrder (a b : Standing) : Prop :=
  b.score < a.score ∨ (a.score = b.score ∧ a.penalty ≤ b.penalty)

instance : DecidableRel standingOrder := fun a b => by
  unfold standingOrder; infer_instance

instance : IsTotal Standing standingOrder := by
  constructor
  intro a b
  rcases Nat.lt_trichotomy a.score b.score with h | h | h
  · exact Or.inr (Or.inl h)
  · rcases Nat.le_total a.penalty b.penalty with hp | hp
    · exact Or.inl (Or.inr ⟨h, hp⟩)
    · exact Or.inr (Or.inr ⟨h.symm, hp⟩)
  · exact Or.inl (Or.inl h)

instance : IsTrans Standing standingOrder := by
  constructor
  intro a b c hab hbc
  rcases hab with hab | ⟨hab, hpab⟩
  · rcases hbc with hbc | ⟨hbc, _⟩
    · exact Or.inl (lt_trans hbc hab)
    · exact Or.inl (hbc ▸ hab)
  · rcases hbc with hbc | ⟨hbc, hpbc⟩
    · exact Or.inl (hab ▸ hbc)
    · exact Or.inr ⟨hab.trans hbc, hpab.trans hpbc⟩

/-- Modelled from the spec (§4.6): walk the sorted standings assigning
dense ranks — a participant with the same score and penalty as the
previous one receives the previous rank, otherwise the next integer. -/
def assignRanks (r : ℕ) (prev : Standing) : List Standing → List (Standing × ℕ)
  | [] => []
  | q :: rest =>
    if q.score = prev.score ∧ q.penalty = prev.penalty then
      (q, r) :: assignRanks r q rest
    else
      (q, r + 1) :: assignRanks (r + 1) q rest

/-- Modelled from the spec (§4.6): a leaderboard read recomputes ranks
from scratch — sort by `standingOrder`, then assign dense ranks starting
at 1.  The stored `rank` column is never consulted. -/
def readLeaderboard (rows : List ParticipantRow) : List (Standing × ℕ) :=
  match List.insertionSort standingOrder (rows.map toStanding) with
  | [] => []
  | p :: rest => (p, 1) :: assignRanks 1 p rest

/-- The dense-rank shape the claim describes: the first rank is 1, equal
score-and-penalty neighbours share a rank, and the rank grows by exactly
one when the key changes — so ranks are 1, 2, 3, … without gaps. -/
def ranksDense (l : List (Standing × ℕ)) : Prop :=
  (match l with
   | [] => True
   | p :: _ => p.2 = 1) ∧
  List.Chain'
    (fun p q =>
      (q.1.score = p.1.score ∧ q.1.penalty = p.1.penalty → q.2 = p.2) ∧
      (¬(q.1.score = p.1.score ∧ q.1.penalty = p.1.penalty) → q.2 = p.2 + 1))
    l

/-- The conjunction of submission-record invariants the pipeline
maintains: test counts ordered, judged-at set exactly on terminal states,
verdict coherent with the status, score within the problem's points. -/
def SubmissionInv (weights : List ℕ) (s : Submission) : Prop :=
  s.testsPassed ≤ s.testsTotal ∧
  (s.judgedAt.isSome = true ↔ s.status.isTerminal = true) ∧
  s.verdict = (match s.status with
               | .terminal v => some v
               | _ => none) ∧
  s.score ≤ maxPoints weights

/-!
## Helper lemmas
-/

theorem runFailFast_passed_le (rs : List TestResult) :
    (runFailFast rs).2 ≤ rs.length := by
  induction rs with
  | nil => simp [runFailFast]
  | cons t rest ih =>
    cases t with
    | pass => simpa [runFailFast] using ih
    | fail k => simp [runFailFast]

theorem runWeighted_passed_le (l : List (TestResult × ℕ)) :
    (runWeighted l).1 ≤ l.length := by
  induction l with
  | nil => simp [runWeighted]
  | cons p rest ih =>
    obtain ⟨t, w⟩ := p
    cases t with
    | pass => simpa [runWeighted] using ih
    | fail k =>
      simp only [runWeighted, List.length_cons]
      omega

theorem runWeighted_score_le (l : List (TestResult × ℕ)) :
    (runWeighted l).2 ≤ (l.map Prod.snd).sum := by
  induction l with
  | nil => simp [runWeighted]
  | cons p rest ih =>
    obtain ⟨t, w⟩ := p
    cases t with
    | pass =>
      simp only [runWeighted, List.map_cons, List.sum_cons]
      omega
    | fail k =>
      simp only [runWeighted, List.map_cons, List.sum_cons]
      omega

theorem submissionInv_init (weights : List ℕ) : SubmissionInv weights initSubmission := by
  refine ⟨le_refl 0, ?_, rfl, Nat.zero_le _⟩
  simp [initSubmission, Status.isTerminal]

theorem submissionInv_step {weights : List ℕ} {s s' : Submission}
    (hinv : SubmissionInv weights s) (hstep : Step weights s s') :
    SubmissionInv weights s' := by
  obtain ⟨hcnt, hjud, hver, hsc⟩ := hinv
  cases hstep with
  | dequeue hs =>
    refine ⟨hcnt, ?_, ?_, hsc⟩
    · rw [hs] at hjud
      simpa [Status.isTerminal] using hjud
    · rw [hs] at hver
      simpa using hver
  | compileFailure msg t hs =>
    exact ⟨hcnt, by simp [Status.isTerminal], by simp, hsc⟩
  | compileOk hs =>
    refine ⟨hcnt, ?_, ?_, hsc⟩
    · rw [hs] at hjud
      simpa [Status.isTerminal] using hjud
    · rw [hs] at hver
      simpa using hver
  | judgeBinary rs t hs hlen =>
    refine ⟨?_, by simp [Status.isTerminal], by simp, ?_⟩
    · simpa [hlen] using runFailFast_passed_le rs
    · by_cases h : failFastVerdict rs = Verdict.accepted <;> simp [h]
  | judgeWeighted rs t hs hlen =>
    refine ⟨?_, by simp [Status.isTerminal], by simp, ?_⟩
    · have h1 := runWeighted_passed_le (rs.zip weights)
      simpa [List.length_zip, hlen] using h1
    · have h1 := runWeighted_score_le (rs.zip weights)
      have h2 : (rs.zip weights).map Prod.snd = weights :=
        List.map_snd_zip rs weights (le_of_eq hlen.symm)
      rw [h2] at h1
      exact h1
  | internalFault t hs =>
    exact ⟨hcnt, by simp [Status.isTerminal], by simp, hsc⟩

theorem submissionInv_reachable {weights : List ℕ} {s : Submission}
    (h : ReachableSubmission weights s) : SubmissionInv weights s := by
  unfold ReachableSubmission at h
  induction h with
  | refl => exact submissionInv_init weights
  | tail hr hstep ih => exact submissionInv_step ih hstep

theorem ofRow_head_public (db : List ProblemRow) (k : ProblemRow → Bool) :
    (match ((db.filter (fun r => k r && r.is_public == some true)).head?).map Problem.ofRow with
     | none => True
     | some p => p.isPublic = true) := by
  induction db with
  | nil => trivial
  | cons r rest ih =>
    by_cases hk : (k r && r.is_public == some true) = true
    · obtain ⟨hk1, hk2⟩ := (Bool.and_eq_true _ _).mp hk
      have hp : r.is_public = some true := eq_of_beq hk2
      simp [List.filter_cons, hk1, hk2, Problem.ofRow, hp]
    · simpa [List.filter_cons, hk] using ih

theorem filter_public_absorb (db : List ProblemRow) (k : ProblemRow → Bool) :
    ((db.filter (fun r => r.is_public == some true)).filter
        (fun r => k r && r.is_public == some true))
      = db.filter (fun r => k r && r.is_public == some true) := by
  induction db with
  | nil => rfl
  | cons r rest ih =>
    by_cases hp : (r.is_public == some true) = true
    · by_cases hk : k r = true <;> simp [List.filter_cons, hp, hk, ih]
    · simp [List.filter_cons, hp, ih]

/-!
## Claim theorems
-/

/-- C7: on the allowed profile-update field set, the runtime
camelCase-to-snake_case translation of `User.update` is extensionally
equal to the static column mapping table — `allowedUpdates` is exactly
the table's key column and mapping each key through `camelToSnake`
reproduces exactly the table's value column, the fixed database column
names. -/
theorem camelToSnake_matches_static_table :
    allowedUpdates = profileColumnTable.map Prod.fst ∧
    allowedUpdates.map camelToSnake = profileColumnTable.map Prod.snd := by
  decide

/-- C8: the `acceptanceRate` getter is total — it returns 0 whenever
`totalSubmissions` is 0, so the division by zero is unreachable, and
otherwise returns accepted over total as a percentage rounded to one
decimal place. -/
theorem acceptanceRate_total_def (a t : ℕ) :
    (t = 0 → acceptanceRate a t = 0) ∧
    (t ≠ 0 → acceptanceRate a t = roundedToOneDecimal (percentageOf a t)) := by
  constructor
  · intro h
    simp [acceptanceRate, h]
  · intro h
    simp [acceptanceRate, roundedToOneDecimal, percentageOf, h]

theorem acceptanceRate_total_def_witness :
    acceptanceRate 0 0 = 0 ∧
    acceptanceRate 1 3 = roundedToOneDecimal (percentageOf 1 3) :=
  ⟨(acceptanceRate_total_def 0 0).1 rfl, (acceptanceRate_total_def 1 3).2 (by decide)⟩

/-- C4: in fail-fast (binary accept/reject) mode, judging stops at the
first failing test case — the aggregate result does not depend on
whatever follows the failure — the submission verdict becomes that test's
failure kind, and `tests_passed` is exactly the number of test cases that
passed before the first failure. -/
theorem failFast_first_failure (pre : List TestResult) (k : FailKind)
    (rest : List TestResult) (hpre : ∀ t ∈ pre, t = .pass) :
    runFailFast (pre ++ .fail k :: rest) = (some k, pre.length) ∧
    failFastVerdict (pre ++ .fail k :: rest) = k.toVerdict := by
  have hrun : runFailFast (pre ++ .fail k :: rest) = (some k, pre.length) := by
    induction pre with
    | nil => simp [runFailFast]
    | cons t ts ih =>
      have ht : t = .pass := hpre t (List.mem_cons_self t ts)
      subst ht
      have hts : ∀ t ∈ ts, t = TestResult.pass := fun t h => hpre t (List.mem_cons_of_mem _ h)
      simp [runFailFast, ih hts]
  exact ⟨hrun, by simp [failFastVerdict, hrun]⟩

theorem failFast_first_failure_witness :
    runFailFast ([.pass, .pass] ++ .fail .wrongAnswer :: List.replicate 7 .pass)
        = (some .wrongAnswer, 2) ∧
    failFastVerdict ([.pass, .pass] ++ .fail .wrongAnswer :: List.replicate 7 .pass)
        = Verdict.wrongAnswer :=
  failFast_first_failure [.pass, .pass] .wrongAnswer (List.replicate 7 .pass) (by decide)

/-- C9: `Problem.findById` and `Problem.findBySlug` return either `null`
or a `Problem` whose public flag is set; moreover both lookups give the
same answer on the full table as on the table restricted to its public
rows, so a non-public problem is indistinguishable from a non-existent
one at this interface. -/
theorem find_only_public (db : List ProblemRow) (i : ℕ) (s : String) :
    (match findById db i with
     | none => True
     | some p => p.isPublic = true) ∧
    (match findBySlug db s with
     | none => True
     | some p => p.isPublic = true) ∧
    findById db i = findById (db.filter (fun r => r.is_public == some true)) i ∧
    findBySlug db s = findBySlug (db.filter (fun r => r.is_public == some true)) s := by
  refine ⟨ofRow_head_public db _, ofRow_head_public db _, ?_, ?_⟩
  · unfold findById
    rw [filter_public_absorb db (fun r => r.id == i)]
  · unfold findBySlug
    rw [filter_public_absorb db (fun r => r.slug == s)]

/-- C1: `Problem.getTestCases` returns the matching rows sorted in
strictly ascending test case id (the ids are distinct because `id` is the
table's primary key), so the order in which a submission's test cases are
judged is fixed, stable and deterministic across calls. -/
theorem getTestCases_sorted_by_id (db : List TestCaseRow) (pid : ℕ) (b : Bool)
    (hids : (db.map TestCaseRow.id).Nodup) :
    List.Sorted (fun x y : ℕ => x < y) ((getTestCases db pid b).map TestCaseRow.id) := by
  unfold getTestCases
  set l := db.filter (fun tc => tc.problem_id == pid && (!b || tc.is_sample)) with hl
  have hsub : l.Sublist db := List.filter_sublist db
  have hnl : (l.map TestCaseRow.id).Nodup := hids.sublist (hsub.map TestCaseRow.id)
  have hperm : (List.insertionSort idLE l).Perm l := List.perm_insertionSort idLE l
  have hns : ((List.insertionSort idLE l).map TestCaseRow.id).Nodup :=
    ((hperm.map TestCaseRow.id).nodup_iff).mpr hnl
  have hsort : List.Sorted idLE (List.insertionSort idLE l) :=
    List.sorted_insertionSort idLE l
  have hle : ((List.insertionSort idLE l).map TestCaseRow.id).Pairwise (· ≤ ·) :=
    (List.pairwise_map).mpr hsort
  exact (hle.and hns).imp (fun h => lt_of_le_of_ne h.1 h.2)

/-- C2: every submission record the pipeline can produce satisfies
`tests_passed ≤ tests_total`, and `judged_at` is non-null exactly on the
terminal statuses; the witness below instantiates this at the freshly
inserted row, whose schema defaults are status Pending, counts 0 and
`judged_at` NULL. -/
theorem submission_counts_judged_at (weights : List ℕ) (s : Submission)
    (h : ReachableSubmission weights s) :
    s.testsPassed ≤ s.testsTotal ∧
    (s.judgedAt ≠ none ↔ s.status.isTerminal = true) := by
  obtain ⟨hcnt, hjud, _, _⟩ := submissionInv_reachable h
  refine ⟨hcnt, ?_⟩
  rw [← hjud, Option.isSome_iff_ne_none]

theorem submission_counts_judged_at_witness :
    initSubmission.testsPassed ≤ initSubmission.testsTotal ∧
    (initSubmission.judgedAt ≠ none ↔ initSubmission.status.isTerminal = true) :=
  submission_counts_judged_at [] initSubmission Relation.ReflTransGen.refl

/-- C3: in every reachable submission record the verdict is null in every
non-terminal state, it is coherent with the status — set exactly when the
transition into a terminal status sets it — and once set it is never
changed by any later operation: no step can rewrite a set verdict. -/
theorem verdict_write_once (weights : List ℕ) (s s' : Submission) (v : Verdict)
    (h : ReachableSubmission weights s) :
    (s.status.isTerminal = false → s.verdict = none) ∧
    s.verdict = (match s.status with
                 | .terminal vv => some vv
                 | _ => none) ∧
    (Step weights s s' → s.verdict = some v → s'.verdict = some v) := by
  obtain ⟨_, _, hver, _⟩ := submissionInv_reachable h
  refine ⟨?_, hver, ?_⟩
  · intro hterm
    rw [hver]
    cases hst : s.status <;> simp_all [Status.isTerminal]
  · intro hstep hsome
    exfalso
    have hterm : s.status.isTerminal = true := by
      rw [hver] at hsome
      cases hst : s.status <;> simp_all [Status.isTerminal]
    cases hstep <;> simp_all [Status.isTerminal]

theorem verdict_write_once_witness :
    (initSubmission.status.isTerminal = false → initSubmission.verdict = none) ∧
    initSubmission.verdict = (match initSubmission.status with
                              | .terminal vv => some vv
                              | _ => none) ∧
    (Step [] initSubmission { initSubmission with status := .compiling } →
      initSubmission.verdict = some .accepted →
      ({ initSubmission with status := Status.compiling } : Submission).verdict
        = some .accepted) :=
  verdict_write_once [] initSubmission { initSubmission with status := .compiling }
    .accepted Relation.ReflTransGen.refl

/-- C5: in every reachable submission record the persisted score lies
between 0 and the problem's maximum points (the sum of its test cases'
point weights), and every further write of the record preserves the
bound. -/
theorem submission_score_bounded (weights : List ℕ) (s s' : Submission)
    (h : ReachableSubmission weights s) :
    (0 ≤ s.score ∧ s.score ≤ maxPoints weights) ∧
    (Step weights s s' → s'.score ≤ maxPoints weights) := by
  obtain ⟨_, _, _, hsc⟩ := submissionInv_reachable h
  refine ⟨⟨Nat.zero_le _, hsc⟩, ?_⟩
  intro hstep
  exact (submissionInv_step (submissionInv_reachable h) hstep).2.2.2

theorem submission_score_bounded_witness :
    (0 ≤ initSubmission.score ∧ initSubmission.score ≤ maxPoints [3, 7]) ∧
    (Step [3, 7] initSubmission { initSubmission with status := .compiling } →
      ({ initSubmission with status := Status.compiling } : Submission).score
        ≤ maxPoints [3, 7]) :=
  submission_score_bounded [3, 7] initSubmission
    { initSubmission with status := .compiling } Relation.ReflTransGen.refl

theorem assignRanks_map_fst (rest : List Standing) :
    ∀ (r : ℕ) (prev : Standing), (assignRanks r prev rest).map Prod.fst = rest := by
  induction rest with
  | nil => intro r prev; rfl
  | cons q rest ih =>
    intro r prev
    by_cases h : q.score = prev.score ∧ q.penalty = prev.penalty
    · simp [assignRanks, h, ih]
    · simp [assignRanks, h, ih]

theorem assignRanks_chain (rest : List Standing) :
    ∀ (r : ℕ) (prev : Standing),
      List.Chain
        (fun p q =>
          (q.1.score = p.1.score ∧ q.1.penalty = p.1.penalty → q.2 = p.2) ∧
          (¬(q.1.score = p.1.score ∧ q.1.penalty = p.1.penalty) → q.2 = p.2 + 1))
        (prev, r) (assignRanks r prev rest) := by
  induction rest with
  | nil => intro r prev; exact List.Chain.nil
  | cons q rest ih =>
    intro r prev
    by_cases h : q.score = prev.score ∧ q.penalty = prev.penalty
    · simp only [assignRanks, h, if_pos]
      exact List.Chain.cons ⟨fun _ => rfl, fun hc => absurd h hc⟩ (ih r q)
    · simp only [assignRanks, h, if_neg, ite_false]
      exact List.Chain.cons ⟨fun hc => absurd hc h, fun _ => rfl⟩ (ih (r + 1) q)

/-- C6: a leaderboard read recomputes rank from scratch — its result does
not depend on the stored `rank` column (overwriting that column with any
value leaves the read unchanged), the participants come back ordered by
score descending with penalty ascending as the tie-break, and the ranks
are assigned densely: the first is 1, equal score-and-penalty
participants share a rank, and the rank advances by exactly one at each
key change, so the ranks are 1, 2, 3, … without gaps. -/
theorem leaderboard_rank_recomputed (rows : List ParticipantRow)
    (f : ParticipantRow → Option ℕ) :
    readLeaderboard (rows.map (fun r => { r with rank := f r })) = readLeaderboard rows ∧
    List.Sorted standingOrder ((readLeaderboard rows).map Prod.fst) ∧
    ranksDense (readLeaderboard rows) := by
  refine ⟨?_, ?_, ?_⟩
  · have hmap : (rows.map (fun r => { r with rank := f r })).map toStanding
        = rows.map toStanding := by
      rw [List.map_map]
      rfl
    unfold readLeaderboard
    rw [hmap]
  · have hsort : List.Sorted standingOrder
        (List.insertionSort standingOrder (rows.map toStanding)) :=
      List.sorted_insertionSort standingOrder (rows.map toStanding)
    unfold readLeaderboard
    cases hcase : List.insertionSort standingOrder (rows.map toStanding) with
    | nil => simp
    | cons p rest =>
      rw [hcase] at hsort
      simpa [assignRanks_map_fst] using hsort
  · unfold readLeaderboard
    cases hcase : List.insertionSort standingOrder (rows.map toStanding) with
    | nil => exact ⟨trivial, trivial⟩
    | cons p rest =>
      exact ⟨rfl, assignRanks_chain rest 1 p⟩

theorem getTestCases_sorted_by_id_witness :
    List.Sorted (fun x y : ℕ => x < y)
      ((getTestCases
          [{ id := 2, problem_id := 1, input_data := "1", expected_output := "2",
             is_sample := false, points := 1 },
           { id := 1, problem_id := 1, input_data := "3", expected_output := "4",
             is_sample := true, points := 1 },
           { id := 3, problem_id := 2, input_data := "5", expected_output := "6",
             is_sample := false, points := 1 }] 1 false).map TestCaseRow.id) :=
  getTestCases_sorted_by_id _ 1 false (by decide)

end CodeforcesClone
